import Mathlib

/-!
Verification of the LaTeX-rendering pipeline of `latex_renderer.py`.

Strings are embedded as `List Char`.  Images are embedded as grids of RGBA
values (`Img`): the source converts every scanned image to RGBA
(`img.convert('RGBA')`, line 57), so pixel values are modelled uniformly as
RGBA 4-tuples of naturals and PIL mode bookkeeping (RGB/L conversions, which
no verified property depends on) is absorbed into that representation.
The PIL `ImageColor` parser is an external library; a background-color
string argument is embedded as `BgColor`: either the transparency sentinel
`'none'` or an opaque color name together with the RGBA value that
`ImageColor.getcolor` would return for it (`none` when the name is
unrecognized, i.e. the parser raises `ValueError`).
-/

/-- Python's default `str.strip` whitespace set (ASCII): space, \t, \n, \r,
\v, \f. -/
def pyIsSpace (c : Char) : Bool :=
  c = ' ' || c = Char.ofNat 9 || c = Char.ofNat 10 || c = Char.ofNat 13 ||
  c = Char.ofNat 11 || c = Char.ofNat 12

/-- Python `s.strip()`: drop leading and trailing whitespace. -/
def strip (s : List Char) : List Char :=
  ((s.dropWhile pyIsSpace).reverse.dropWhile pyIsSpace).reverse

/-- `prefL d s = true` iff `d` is a leading block of `s` (literal match). -/
def prefL : List Char → List Char → Bool
  | [], _ => true
  | _ :: _, [] => false
  | a :: d, b :: s => decide (a = b) && prefL d s

/-- Leftmost occurrence of the literal pattern `d` in `s`:
`some (before, after)` decomposes `s = before ++ d ++ after` at the first
match, `none` when `d` does not occur.  This is how `re.split` with an
escaped pattern scans the input (leftmost, non-overlapping). -/
def splitFirst (d : List Char) : List Char → Option (List Char × List Char)
  | [] => none
  | c :: cs =>
    if prefL d (c :: cs) then some ([], (c :: cs).drop d.length)
    else (splitFirst d cs).map fun p => (c :: p.1, p.2)

/-- Fuel-indexed worker for `reSplitCapture`; `fuel ≥ s.length + 1` always
suffices because each step removes at least the non-empty pattern. -/
def reSplitFuel (d : List Char) : Nat → List Char → List (List Char)
  | 0, s => [s]
  | fuel + 1, s =>
    match splitFirst d s with
    | none => [s]
    | some (b, a) => b :: d :: reSplitFuel d fuel a

/-- `re.split('()', s)` for the empty pattern: the pattern matches (and
captures the empty string) at every position, so the parts are
`'', '', c1, '', c2, '', …, ''`. -/
def reSplitEmptyDelim (s : List Char) : List (List Char) :=
  [[], []] ++ (s.map fun c => [[c], ([] : List Char)]).flatten ++ [[]]

/-- `re.split(f'({re.escape(delimiter)})', latex_input)` (line 22): split on
every occurrence of the literal delimiter, keeping each occurrence as its
own part (the captured group). -/
def reSplitCapture (d s : List Char) : List (List Char) :=
  if d = [] then reSplitEmptyDelim s
  else reSplitFuel d (s.length + 1) s

/-- The accumulation loop of `split_latex_into_lines` (lines 24-40):
empty parts are skipped (`continue`, so the last-part flush is skipped
too), a delimiter part is appended to the current segment which is then
stripped and emitted if non-empty, and at the last part the pending
segment is stripped and emitted if non-empty. -/
def segLoop (d : List Char) : List Char → List (List Char) → List (List Char)
  | _, [] => []
  | cur, p :: rest =>
    if p = [] then segLoop d cur rest
    else
      let flushed := if p = d then (let s := strip (cur ++ p); if s = [] then [] else [s]) else []
      let cur2 := if p = d then [] else cur ++ p
      let fin := if rest = [] then (let s := strip cur2; if s = [] then [] else [s]) else []
      flushed ++ (fin ++ segLoop d cur2 rest)

/-- `split_latex_into_lines` (lines 12-48): the Segmenter. -/
def split_latex_into_lines (latex_input : List Char) (delimiter : List Char) :
    List (List Char) :=
  if strip latex_input = [] then []
  else
    let raw_parts := reSplitCapture delimiter latex_input
    let lines_final := segLoop delimiter [] raw_parts
    if lines_final = [] then
      if strip latex_input = delimiter then [delimiter] else [strip latex_input]
    else lines_final

/-- `d` repeated `n` times, for stating the repeated-delimiter property. -/
def repeatStr (d : List Char) : Nat → List Char
  | 0 => []
  | n + 1 => d ++ repeatStr d n

/-! ## Images -/

/-- An RGBA pixel value: (r, g, b, alpha). -/
abbrev Rgba := Nat × Nat × Nat × Nat

/-- A rasterized image: dimensions plus an RGBA pixel grid (the source
scans images after `img.convert('RGBA')`).  `pix x y` is only meaningful
for `x < width`, `y < height`. -/
structure Img where
  width : Nat
  height : Nat
  pix : Nat → Nat → Rgba

/-- The `background_color_str` argument.  `transparent` models a string
whose `.lower()` is `'none'`; `named c` models an opaque color name, with
`c = some v` when `ImageColor.getcolor(name, 'RGBA') = v` and `c = none`
when the parser raises `ValueError` (unrecognized name). -/
inductive BgColor
  | transparent
  | named (c : Option Rgba)
  deriving DecidableEq

/-- The RGBA value that `ImageColor` resolution produces for a background
in the source's fill-color computations (auto-crop padding lines 112-121,
blank-image fill lines 141-150, and canvas fill lines 288-297):
the transparency sentinel yields fully transparent, a recognized name
yields its parsed RGBA, and an unrecognized name makes `getcolor` and the
`getrgb` fallback both raise `ValueError`, modelled as `none`. -/
def pyColorRGBA : BgColor → Option Rgba
  | .transparent => some (0, 0, 0, 0)
  | .named (some v) => some v
  | .named none => none

/-- Ink classification of one pixel (lines 64-88): under a transparent
background a pixel is ink iff its alpha is positive; under an opaque
background it is ink iff its RGBA value differs from the background's,
where an unrecognized color name falls back to opaque white
`(255, 255, 255, 255)` (lines 76-79). -/
def inkTest (bg : BgColor) (p : Rgba) : Bool :=
  match bg with
  | .transparent => decide (0 < p.2.2.2)
  | .named c => decide (p ≠ c.getD (255, 255, 255, 255))

/-- The mutable scan state of `get_precise_ink_bbox` (line 61-62). -/
structure ScanState where
  minX : Int
  minY : Int
  maxX : Int
  maxY : Int
  found : Bool

/-- One step of the pixel scan (lines 68-73 / 83-88): on an ink pixel the
four bounds are tightened and `found` is set. -/
def scanUpd (ink : Nat → Nat → Bool) (st : ScanState) (c : Nat × Nat) : ScanState :=
  if ink c.1 c.2 then
    { minX := if (c.1 : Int) < st.minX then (c.1 : Int) else st.minX
      minY := if (c.2 : Int) < st.minY then (c.2 : Int) else st.minY
      maxX := if st.maxX < (c.1 : Int) then (c.1 : Int) else st.maxX
      maxY := if st.maxY < (c.2 : Int) then (c.2 : Int) else st.maxY
      found := true }
  else st

/-- Row-major traversal order of the two nested loops
(`for y_ax in range(height): for x_ax in range(width)`). -/
def scanCoords (w h : Nat) : List (Nat × Nat) :=
  (List.range h).flatMap fun y => (List.range w).map fun x => (x, y)

/-- The final scan state of `get_precise_ink_bbox`: the whole-image fold of
the per-pixel update, from the initial bounds `(width, height, -1, -1)` with
`found = False` (lines 61-62). -/
def scanState (img : Img) (bg : BgColor) : ScanState :=
  (scanCoords img.width img.height).foldl
    (scanUpd fun x y => inkTest bg (img.pix x y))
    ⟨(img.width : Int), (img.height : Int), -1, -1, false⟩

/-- `get_precise_ink_bbox` (lines 50-94): scan every pixel, returning
`(min_x, min_y, max_x + 1, max_y + 1)` when ink was found and `none`
otherwise. -/
def get_precise_ink_bbox (img : Img) (bg : BgColor) : Option (Int × Int × Int × Int) :=
  if (scanState img bg).found then
    some ((scanState img bg).minX, (scanState img bg).minY,
      (scanState img bg).maxX + 1, (scanState img bg).maxY + 1)
  else none

/-- PIL `img.crop((left, upper, right, lower))`: the result has size
`(right - left, lower - upper)` (clamped at 0) and its pixel `(x, y)` is
the source pixel `(left + x, upper + y)`. -/
def cropImg (img : Img) (bb : Int × Int × Int × Int) : Img :=
  { width := (bb.2.2.1 - bb.1).toNat
    height := (bb.2.2.2 - bb.2.1).toNat
    pix := fun x y => img.pix (bb.1.toNat + x) (bb.2.1.toNat + y) }

/-- PIL `base.paste(img, (px, py))` for non-negative offsets. -/
def pasteInto (base img : Img) (px py : Nat) : Img :=
  { base with pix := fun x y =>
      if px ≤ x ∧ x < px + img.width ∧ py ≤ y ∧ y < py + img.height
      then img.pix (x - px) (y - py) else base.pix x y }

/-- The 1×1 guard of `auto_crop_image` (lines 131-136): a zero-area result
is replaced by a 1×1 image filled with the background; an unrecognized
color name makes the fill computation raise, which the outer handler turns
into failure (`none`). -/
def ensureNonzero (bg : BgColor) (img : Img) : Option Img :=
  if img.width = 0 ∨ img.height = 0 then
    match pyColorRGBA bg with
    | some f => some { width := 1, height := 1, pix := fun _ _ => f }
    | none => none
  else some img

/-- `auto_crop_image` (lines 97-159).  `some` is the image saved back to
the file on success (`return True`); `none` models `return False` (an
exception was caught, lines 154-159).  With a found bbox the image is
cropped; positive padding re-embeds the crop centered in a
background-filled canvas of size `max 1 (w + 2p) × max 1 (h + 2p)`;
a `none` bbox (blank image) saves a 1×1 background-filled image
(lines 139-151). -/
def auto_crop_image (img : Img) (bg : BgColor) (padding : Nat) : Option Img :=
  match get_precise_ink_bbox img bg with
  | some bb =>
    let img_cropped := cropImg img bb
    if 0 < padding then
      match pyColorRGBA bg with
      | none => none
      | some fill =>
        let new_width := max 1 (img_cropped.width + 2 * padding)
        let new_height := max 1 (img_cropped.height + 2 * padding)
        let padded := pasteInto
          { width := new_width, height := new_height, pix := fun _ _ => fill }
          img_cropped padding padding
        ensureNonzero bg padded
    else ensureNonzero bg img_cropped
  | none =>
    match pyColorRGBA bg with
    | some f => some { width := 1, height := 1, pix := fun _ _ => f }
    | none => none

/-! ## Compositor -/

/-- Fill used for the zero-size placeholder in the load loop of
`stitch_images_vertically` (lines 253-256): transparent background gives a
fully transparent fill; a recognized name gives its RGBA; an unrecognized
name makes `getcolor` raise and the bare `except` falls back to zeros. -/
def stitchZeroFill : BgColor → Rgba
  | .transparent => (0, 0, 0, 0)
  | .named (some v) => v
  | .named none => (0, 0, 0, 0)

/-- The per-image adjustment of the load loop (lines 249-258): an image
with zero width or zero height is replaced by a background-filled
placeholder of size `max 1 w × max 1 h`. -/
def loadAdjust (bg : BgColor) (img : Img) : Img :=
  if img.width = 0 ∨ img.height = 0 then
    { width := max 1 img.width, height := max 1 img.height
      pix := fun _ _ => stitchZeroFill bg }
  else img

/-- The canvas fill of `stitch_images_vertically` (lines 288-297):
transparent background fills with `(0,0,0,0)`; a recognized name fills
with its RGBA; an unrecognized name makes both `getcolor` and the
`getrgb` fallback raise `ValueError`, which propagates out of the
function uncaught (`none`). -/
def effectiveBg : BgColor → Option Rgba
  | .transparent => some (0, 0, 0, 0)
  | .named (some v) => some v
  | .named none => none

/-- Modelled from the spec: the "nothing to stitch" notice image that
`stitch_images_vertically` draws through matplotlib when no image could
be loaded (lines 265-272, a 3×1 inch figure saved at dpi 100).  The
matplotlib rasterizer is external; only the existence and positive
dimensions of this placeholder are relied upon. -/
def nothingToStitchImg : Img :=
  { width := 300, height := 100, pix := fun _ _ => (255, 255, 255, 255) }

/-- One paste of the stitch loop (line 314): left-aligned at `(0, y0)`. -/
def pasteAt (canvas img : Img) (y0 : Int) : Img :=
  { canvas with pix := fun x y =>
      if x < img.width ∧ y0 ≤ (y : Int) ∧ (y : Int) < y0 + img.height
      then img.pix x ((y : Int) - y0).toNat else canvas.pix x y }

/-- The paste loop of `stitch_images_vertically` (lines 300-317): images
are pasted top-to-bottom, the offset advancing by each image's height plus
`line_spacing` after every image except the last. -/
def pasteAll (spacing : Int) : Img → Int → List Img → Img
  | canvas, _, [] => canvas
  | canvas, y, i :: rest =>
    pasteAll spacing (pasteAt canvas i y) (y + i.height + if rest.isEmpty then 0 else spacing) rest

/-- `stitch_images_vertically` (lines 237-323).  A path is `some img` when
`Image.open` succeeds and `none` when the file is missing or unopenable
(skipped with a warning).  The result is `some` of the image saved to the
output file, or `none` when no file is written: the empty-path-list early
return (lines 241-243) writes nothing, and an unrecognized background
color name raises out of the canvas-fill computation before any save. -/
def stitch_images_vertically (image_paths : List (Option Img)) (bgcolor_fill : BgColor)
    (line_spacing : Int) : Option Img :=
  if image_paths.isEmpty then none
  else
    let images := (image_paths.filterMap id).map (loadAdjust bgcolor_fill)
    if images.isEmpty then some nothingToStitchImg
    else
      let max_width := max 1 ((images.map Img.width).foldl max 0)
      let total_height : Int :=
        if 1 < images.length then
          (images.map fun i => (i.height : Int)).sum +
            ((images.length : Int) - 1) * line_spacing
        else (images.map fun i => (i.height : Int)).sum
      let total_height := max 1 total_height
      match effectiveBg bgcolor_fill with
      | none => none
      | some fill =>
        let canvas : Img := { width := max_width, height := total_height.toNat
                              pix := fun _ _ => fill }
        some (pasteAll line_spacing canvas 0 images)

/-! ## Concrete instances used as witnesses -/

/-- Opaque white background, as `ImageColor.getcolor('white', 'RGBA')`
resolves it. -/
def bgWhiteEx : BgColor := BgColor.named (some (255, 255, 255, 255))

/-- A 2×2 image whose only non-white pixel is black at (1, 0). -/
def imgDotEx : Img :=
  { width := 2, height := 2
    pix := fun x y => if x = 1 ∧ y = 0 then (0, 0, 0, 255) else (255, 255, 255, 255) }

/-- A 1×1 all-black image. -/
def imgPxEx : Img := { width := 1, height := 1, pix := fun _ _ => (0, 0, 0, 255) }

/-- A degenerate image of width 0 and height 10. -/
def imgZeroWEx : Img := { width := 0, height := 10, pix := fun _ _ => (0, 0, 0, 255) }

/-- A degenerate image of width 5 and height 0. -/
def imgZeroHEx : Img := { width := 5, height := 0, pix := fun _ _ => (0, 0, 0, 255) }

/-- A 3×10 all-black image. -/
def imgH10Ex : Img := { width := 3, height := 10, pix := fun _ _ => (0, 0, 0, 255) }

/-- A 7×20 all-black image. -/
def imgH20Ex : Img := { width := 7, height := 20, pix := fun _ _ => (0, 0, 0, 255) }

/-! ## Helper lemmas: stripping -/

theorem strip_eq_rdropWhile (s : List Char) :
    strip s = List.rdropWhile pyIsSpace (s.dropWhile pyIsSpace) := rfl

theorem strip_nil : strip [] = [] := rfl

theorem ne_nil_of_strip_ne_nil {s : List Char} (h : strip s ≠ []) : s ≠ [] := by
  intro hs; exact h (by simp [hs, strip_nil])

theorem strip_length_le (s : List Char) : (strip s).length ≤ s.length := by
  rw [strip_eq_rdropWhile]
  exact le_trans ((List.rdropWhile_prefix _ _).length_le)
    ((List.dropWhile_suffix _).length_le)

theorem dropWhile_eq_self_of_strip_eq_self {d : List Char} (h : strip d = d) :
    d.dropWhile pyIsSpace = d := by
  have h1 : (d.dropWhile pyIsSpace).length ≤ d.length :=
    (List.dropWhile_suffix _).length_le
  have h2 : d.length ≤ (d.dropWhile pyIsSpace).length := by
    calc d.length = (strip d).length := by rw [h]
    _ ≤ (d.dropWhile pyIsSpace).length := by
        rw [strip_eq_rdropWhile]
        exact (List.rdropWhile_prefix _ _).length_le
  exact (List.dropWhile_suffix _).eq_of_length (le_antisymm h1 h2)

theorem rdropWhile_eq_self_of_strip_eq_self {d : List Char} (h : strip d = d) :
    List.rdropWhile pyIsSpace d = d := by
  have hd := dropWhile_eq_self_of_strip_eq_self h
  calc List.rdropWhile pyIsSpace d
      = List.rdropWhile pyIsSpace (d.dropWhile pyIsSpace) := by rw [hd]
    _ = d := by rw [← strip_eq_rdropWhile, h]

theorem strip_eq_self_of_parts {d : List Char}
    (h1 : d.dropWhile pyIsSpace = d) (h2 : List.rdropWhile pyIsSpace d = d) :
    strip d = d := by
  rw [strip_eq_rdropWhile, h1, h2]

theorem strip_idem (s : List Char) : strip (strip s) = strip s := by
  have hdrop : (strip s).dropWhile pyIsSpace = strip s := by
    rcases heq : strip s with _ | ⟨a, t⟩
    · rfl
    · have hpre : List.rdropWhile pyIsSpace (s.dropWhile pyIsSpace) <+:
          s.dropWhile pyIsSpace := List.rdropWhile_prefix _ _
      rw [← strip_eq_rdropWhile, heq] at hpre
      rcases hpre with ⟨r, hr⟩
      have hhead : pyIsSpace a = false := by
        have hcons : s.dropWhile pyIsSpace = a :: (t ++ r) := by rw [← hr]; simp
        have hne : s.dropWhile pyIsSpace ≠ [] := by rw [hcons]; simp
        have hh := List.head_dropWhile_not pyIsSpace s hne
        simp only [hcons, List.head_cons] at hh
        exact hh
      simp [List.dropWhile_cons, hhead]
  have hr : List.rdropWhile pyIsSpace (strip s) = strip s := by
    rw [strip_eq_rdropWhile]
    exact List.rdropWhile_idempotent _ _
  rw [strip_eq_rdropWhile, hdrop, hr]

theorem strip_append_suffix {d : List Char} (hd : strip d = d) (hne : d ≠ [])
    (c : List Char) : d <:+ strip (c ++ d) := by
  have h1 := dropWhile_eq_self_of_strip_eq_self hd
  have h2 := rdropWhile_eq_self_of_strip_eq_self hd
  have hlast := (List.rdropWhile_eq_self_iff).mp h2
  rw [strip_eq_rdropWhile, List.dropWhile_append]
  by_cases hc : (c.dropWhile pyIsSpace).isEmpty = true
  · rw [if_pos hc, h1, h2]
  · rw [if_neg hc]
    have hres : List.rdropWhile pyIsSpace (c.dropWhile pyIsSpace ++ d) =
        c.dropWhile pyIsSpace ++ d := by
      rw [List.rdropWhile_eq_self_iff]
      intro hl
      rw [List.getLast_append_of_ne_nil hne]
      exact hlast hne
    rw [hres]
    exact ⟨c.dropWhile pyIsSpace, rfl⟩

/-! ## Helper lemmas: pattern search and splitting -/

theorem prefL_append (d r : List Char) : prefL d (d ++ r) = true := by
  induction d with
  | nil => rfl
  | cons a d ih => simp [prefL, ih]

theorem isPre_of_prefL : ∀ {d s : List Char}, prefL d s = true → d <+: s := by
  intro d
  induction d with
  | nil => intro s _; exact List.nil_prefix
  | cons a d ih =>
    intro s h
    cases s with
    | nil => simp [prefL] at h
    | cons b t =>
      simp only [prefL, Bool.and_eq_true, decide_eq_true_eq] at h
      obtain ⟨rfl, h2⟩ := h
      obtain ⟨r, hr⟩ := ih h2
      exact ⟨r, by rw [List.cons_append, hr]⟩

theorem splitFirst_append {d : List Char} (hne : d ≠ []) (r : List Char) :
    splitFirst d (d ++ r) = some ([], r) := by
  rcases hd : d with _ | ⟨a, d'⟩
  · exact absurd hd hne
  · have hp : prefL (a :: d') (a :: (d' ++ r)) = true := by
      have h := prefL_append (a :: d') r
      simpa using h
    rw [List.cons_append, splitFirst, if_pos hp, ← List.cons_append, List.drop_left]

theorem splitFirst_length {d : List Char} (hne : d ≠ []) :
    ∀ {s b a : List Char}, splitFirst d s = some (b, a) → a.length < s.length := by
  have hdlen : 1 ≤ d.length := by
    cases d with
    | nil => exact absurd rfl hne
    | cons x xs => simp
  intro s
  induction s with
  | nil => intro b a h; simp [splitFirst] at h
  | cons c cs ih =>
    intro b a h
    rw [splitFirst] at h
    by_cases hp : prefL d (c :: cs) = true
    · rw [if_pos hp] at h
      have ha : a = (c :: cs).drop d.length := by
        have := congrArg (fun o => Option.map Prod.snd o) h
        simpa using this.symm
      rw [ha, List.length_drop]
      have hc : (c :: cs).length = cs.length + 1 := by simp
      omega
    · rw [if_neg hp] at h
      cases hsp : splitFirst d cs with
      | none => rw [hsp] at h; simp at h
      | some p =>
        rw [hsp] at h
        have h' : some ((c :: p.1, p.2) : List Char × List Char) = some (b, a) := h
        have h2 : (c :: p.1, p.2) = ((b, a) : List Char × List Char) := by injection h'
        have ha : a = p.2 := (congrArg Prod.snd h2).symm
        have hlt := ih (b := p.1) (a := p.2) (by rw [hsp])
        rw [ha]
        have hc : (c :: cs).length = cs.length + 1 := by simp
        omega

theorem splitFirst_finds_occurrence {d : List Char} :
    ∀ {s : List Char} {q : List Char × List Char}, splitFirst d s = some q → d <:+: s := by
  intro s
  induction s with
  | nil => intro q h; simp [splitFirst] at h
  | cons c cs ih =>
    intro q h
    rw [splitFirst] at h
    by_cases hp : prefL d (c :: cs) = true
    · exact (isPre_of_prefL hp).isInfix
    · rw [if_neg hp] at h
      cases hsp : splitFirst d cs with
      | none => rw [hsp] at h; simp at h
      | some p => exact List.infix_cons (ih hsp)

/-! ## Helper lemmas: repeated delimiters -/

theorem repeatStr_succ_right (d : List Char) (n : Nat) :
    repeatStr d (n + 1) = repeatStr d n ++ d := by
  induction n with
  | zero => simp [repeatStr]
  | succ n ih =>
    show d ++ repeatStr d (n + 1) = repeatStr d (n + 1) ++ d
    conv_lhs => rw [ih]
    show d ++ (repeatStr d n ++ d) = (d ++ repeatStr d n) ++ d
    rw [List.append_assoc]

theorem repeatStr_ne_nil {d : List Char} (hne : d ≠ []) (n : Nat) :
    repeatStr d (n + 1) ≠ [] := by
  rw [repeatStr]
  simp [hne]

theorem strip_repeatStr {d : List Char} (hd : strip d = d) (hne : d ≠ []) (n : Nat) :
    strip (repeatStr d (n + 1)) = repeatStr d (n + 1) := by
  apply strip_eq_self_of_parts
  · rw [repeatStr, List.dropWhile_append, dropWhile_eq_self_of_strip_eq_self hd]
    have hfalse : d.isEmpty = false := by
      cases d with
      | nil => exact absurd rfl hne
      | cons x xs => rfl
    rw [hfalse]
    simp
  · rw [repeatStr_succ_right, List.rdropWhile_eq_self_iff]
    intro hl
    rw [List.getLast_append_of_ne_nil hne]
    exact (List.rdropWhile_eq_self_iff.mp (rdropWhile_eq_self_of_strip_eq_self hd)) hne

/-! ## Helper lemmas: the accumulation loop -/

theorem segLoop_skip (d cur : List Char) (rest : List (List Char)) :
    segLoop d cur ([] :: rest) = segLoop d cur rest := by
  rw [segLoop, if_pos rfl]

theorem segLoop_cons (d cur p : List Char) (rest : List (List Char)) (hp : p ≠ []) :
    segLoop d cur (p :: rest) =
      (if p = d then (if strip (cur ++ p) = [] then [] else [strip (cur ++ p)]) else []) ++
      ((if rest = [] then (if strip (if p = d then [] else cur ++ p) = [] then []
          else [strip (if p = d then [] else cur ++ p)]) else []) ++
        segLoop d (if p = d then [] else cur ++ p) rest) := by
  rw [segLoop, if_neg hp]

theorem reSplitFuel_of_none {d s : List Char} (h : splitFirst d s = none) (fuel : Nat) :
    reSplitFuel d fuel s = [s] := by
  cases fuel with
  | zero => rfl
  | succ f => simp [reSplitFuel, h]

theorem reSplitFuel_repeat {d : List Char} (hne : d ≠ []) :
    ∀ (n fuel : Nat), (repeatStr d n).length < fuel →
      reSplitFuel d fuel (repeatStr d n) =
        (List.replicate n [([] : List Char), d]).flatten ++ [[]] := by
  intro n
  induction n with
  | zero =>
    intro fuel _
    have h0 : splitFirst d ([] : List Char) = none := rfl
    simp [repeatStr, reSplitFuel_of_none h0]
  | succ n ih =>
    intro fuel hf
    cases fuel with
    | zero => simp at hf
    | succ f =>
      have hsp : splitFirst d (repeatStr d (n + 1)) = some ([], repeatStr d n) := by
        rw [repeatStr]; exact splitFirst_append hne _
      have hlt := splitFirst_length hne hsp
      have hflen : (repeatStr d n).length < f := by omega
      simp only [reSplitFuel, hsp]
      rw [ih f hflen]
      simp [List.replicate_succ]

theorem segLoop_repeat {d : List Char} (hd : strip d = d) (hne : d ≠ []) :
    ∀ n : Nat, segLoop d []
        ((List.replicate n [([] : List Char), d]).flatten ++ [[]]) =
      List.replicate n d := by
  intro n
  induction n with
  | zero =>
    show segLoop d [] ([] :: []) = []
    rw [segLoop_skip]
    rfl
  | succ n ih =>
    show segLoop d [] ([] :: d ::
        ((List.replicate n [([] : List Char), d]).flatten ++ [[]])) = _
    rw [segLoop_skip, segLoop_cons d [] d _ hne]
    have hrest : (List.replicate n [([] : List Char), d]).flatten ++ [[]] ≠ [] := by
      simp
    rw [if_pos rfl, if_pos rfl, if_neg hrest]
    have hsd : strip ([] ++ d) = d := by
      rw [List.nil_append, hd]
    rw [hsd, if_neg hne, ih]
    simp [List.replicate_succ]

theorem segLoop_cons_delim (d cur : List Char) (rest : List (List Char)) (hne : d ≠ [])
    (hss : strip (cur ++ d) ≠ []) :
    segLoop d cur (d :: rest) = strip (cur ++ d) :: segLoop d [] rest := by
  rw [segLoop_cons d cur d rest hne]
  simp [hss, strip_nil]

theorem segLoop_cons_delim_empty (d cur : List Char) (rest : List (List Char)) (hne : d ≠ [])
    (hss : strip (cur ++ d) = []) :
    segLoop d cur (d :: rest) = segLoop d [] rest := by
  rw [segLoop_cons d cur d rest hne]
  simp [hss, strip_nil]

theorem segLoop_cons_text (d cur p : List Char) (rest : List (List Char)) (hp : p ≠ [])
    (hpd : p ≠ d) :
    segLoop d cur (p :: rest) =
      (if rest = [] then (if strip (cur ++ p) = [] then [] else [strip (cur ++ p)]) else []) ++
      segLoop d (cur ++ p) rest := by
  rw [segLoop_cons d cur p rest hp]
  simp [hpd]

theorem segLoop_mem (d : List Char) :
    ∀ (parts : List (List Char)) (cur s : List Char),
      s ∈ segLoop d cur parts → strip s = s ∧ s ≠ [] := by
  intro parts
  induction parts with
  | nil => intro cur s hs; simp [segLoop] at hs
  | cons p rest ih =>
    intro cur s hs
    by_cases hp : p = []
    · subst hp; rw [segLoop_skip] at hs; exact ih cur s hs
    · by_cases hpd : p = d
      · subst hpd
        by_cases hss : strip (cur ++ p) = []
        · rw [segLoop_cons_delim_empty p cur rest hp hss] at hs
          exact ih [] s hs
        · rw [segLoop_cons_delim p cur rest hp hss] at hs
          rcases List.mem_cons.mp hs with hs | hs
          · subst hs; exact ⟨strip_idem _, hss⟩
          · exact ih [] s hs
      · rw [segLoop_cons_text d cur p rest hp hpd] at hs
        rcases List.mem_append.mp hs with hs | hs
        · by_cases hr : rest = []
          · rw [if_pos hr] at hs
            by_cases hss : strip (cur ++ p) = []
            · rw [if_pos hss] at hs; simp at hs
            · rw [if_neg hss] at hs
              simp only [List.mem_singleton] at hs
              subst hs
              exact ⟨strip_idem _, hss⟩
          · rw [if_neg hr] at hs; simp at hs
        · exact ih (cur ++ p) s hs

theorem segLoop_suffix {d : List Char} (hd : strip d = d) (hne : d ≠ []) :
    ∀ (parts : List (List Char)) (cur s : List Char),
      s ∈ (segLoop d cur parts).dropLast → d <:+ s := by
  intro parts
  induction parts with
  | nil => intro cur s hs; simp [segLoop] at hs
  | cons p rest ih =>
    intro cur s hs
    by_cases hp : p = []
    · subst hp; rw [segLoop_skip] at hs; exact ih cur s hs
    · by_cases hpd : p = d
      · subst hpd
        have hsfx : p <:+ strip (cur ++ p) := strip_append_suffix hd hne cur
        have hss : strip (cur ++ p) ≠ [] := by
          intro h0
          rw [h0] at hsfx
          exact hp (List.suffix_nil.mp hsfx)
        rw [segLoop_cons_delim p cur rest hp hss] at hs
        cases hL : segLoop p [] rest with
        | nil => rw [hL] at hs; simp at hs
        | cons q t =>
          rw [hL, List.dropLast_cons₂] at hs
          rcases List.mem_cons.mp hs with hs | hs
          · subst hs; exact hsfx
          · exact ih [] s (by rw [hL]; exact hs)
      · rw [segLoop_cons_text d cur p rest hp hpd] at hs
        by_cases hr : rest = []
        · subst hr
          rw [if_pos rfl] at hs
          by_cases hss : strip (cur ++ p) = []
          · rw [if_pos hss] at hs; simp [segLoop] at hs
          · rw [if_neg hss] at hs; simp [segLoop] at hs
        · rw [if_neg hr, List.nil_append] at hs
          exact ih (cur ++ p) s hs

/-! ## Claim C1 -/

/-- C1, counterexample: on the delimiter `","` repeated `N = 2` times the
Segmenter returns two segments (one per occurrence), not exactly one. -/
theorem c1_counterexample :
    (split_latex_into_lines (repeatStr [','] 2) [',']).length = 2 := by decide

/-- C1 (amended): for every non-empty, whitespace-trimmed delimiter `d`
and every `N ≥ 1`, the Segmenter on `d` repeated `N` times yields exactly
`N` segments, each equal to `d` — so exactly one segment only when
`N = 1`, not for every `N`. -/
theorem c1_repeated_delimiter_gives_n_segments (d : List Char) (hd : strip d = d)
    (hne : d ≠ []) (n : Nat) (hn : 1 ≤ n) :
    split_latex_into_lines (repeatStr d n) d = List.replicate n d := by
  obtain ⟨m, rfl⟩ : ∃ m, n = m + 1 := ⟨n - 1, by omega⟩
  have hstrip := strip_repeatStr hd hne m
  have hnnil := repeatStr_ne_nil hne m
  have hparts : reSplitCapture d (repeatStr d (m + 1)) =
      (List.replicate (m + 1) [([] : List Char), d]).flatten ++ [[]] := by
    rw [reSplitCapture, if_neg hne]
    exact reSplitFuel_repeat hne (m + 1) _ (by omega)
  have hseg := segLoop_repeat hd hne (m + 1)
  have hrep : (List.replicate (m + 1) d) ≠ [] := by simp
  simp [split_latex_into_lines, hparts, hstrip, hnnil, hseg, hrep]

/-- C1, witness: with `d = ","` and `N = 2` the amended statement applies
and gives two `","` segments. -/
theorem c1_witness :
    split_latex_into_lines (repeatStr [','] 2) [','] = List.replicate 2 [','] :=
  c1_repeated_delimiter_gives_n_segments [','] (by decide) (by decide) 2 (by decide)

/-! ## Claim C2 -/

/-- C2, counterexample: with the delimiter `" "` (a single space) on input
`"a b"`, the occurrence of the delimiter is consumed by trimming: the
result is `["a", "b"]` and the delimiter is not a suffix of the segment
preceding the occurrence. -/
theorem c2_counterexample :
    split_latex_into_lines (String.toList "a b") [' '] = [['a'], ['b']] ∧
      ¬ [' '] <:+ ['a'] := by decide

/-- C2 (amended): for delimiters that are non-empty and carry no leading
or trailing whitespace, every returned segment except the last has the
delimiter as a suffix (each occurrence is appended to the end of the
segment preceding it); the claim's concrete examples
`"A=1,B=2,C=3" ↦ ["A=1,", "B=2,", "C=3"]` and `"X=Y," ↦ ["X=Y,"]` hold.
For delimiters that trimming can alter (e.g. `" "`), the suffix clause
fails. -/
theorem c2_delimiter_kept_as_suffix :
    (∀ (input d : List Char), strip d = d → d ≠ [] →
        ∀ s ∈ (split_latex_into_lines input d).dropLast, d <:+ s) ∧
      split_latex_into_lines (String.toList "A=1,B=2,C=3") [','] =
        [String.toList "A=1,", String.toList "B=2,", String.toList "C=3"] ∧
      split_latex_into_lines (String.toList "X=Y,") [','] = [String.toList "X=Y,"] := by
  refine ⟨?_, by decide, by decide⟩
  intro input d hd hne s hs
  by_cases h0 : strip input = []
  · simp [split_latex_into_lines, h0] at hs
  · by_cases hL : segLoop d [] (reSplitCapture d input) = []
    · have hres : split_latex_into_lines input d =
          if strip input = d then [d] else [strip input] := by
        simp [split_latex_into_lines, h0, hL]
      rw [hres] at hs
      by_cases hsd : strip input = d
      · rw [if_pos hsd] at hs; simp at hs
      · rw [if_neg hsd] at hs; simp at hs
    · have hres : split_latex_into_lines input d =
          segLoop d [] (reSplitCapture d input) := by
        simp [split_latex_into_lines, h0, hL]
      rw [hres] at hs
      exact segLoop_suffix hd hne _ [] s hs

/-- C2, witness: on `"a,b"` with delimiter `","` the non-last segment
`"a,"` ends with the delimiter. -/
theorem c2_witness : [','] <:+ String.toList "a," :=
  c2_delimiter_kept_as_suffix.1 (String.toList "a,b") [','] (by decide) (by decide)
    (String.toList "a,") (by decide)

/-! ## Claim C6 -/

/-- C6: a non-empty (after trimming) input containing no occurrence of the
delimiter yields exactly one segment, the trimmed input; an empty or
whitespace-only input yields the empty list. -/
theorem c6_no_delimiter_single_segment (input d : List Char) :
    (strip input = [] → split_latex_into_lines input d = []) ∧
      (strip input ≠ [] → ¬ d <:+: input →
        split_latex_into_lines input d = [strip input]) := by
  constructor
  · intro h; simp [split_latex_into_lines, h]
  · intro h hinf
    have hdne : d ≠ [] := by
      intro hdn
      exact hinf (by rw [hdn]; exact List.nil_infix)
    have hnone : splitFirst d input = none := by
      cases h' : splitFirst d input with
      | none => rfl
      | some q => exact absurd (splitFirst_finds_occurrence h') hinf
    have hparts : reSplitCapture d input = [input] := by
      rw [reSplitCapture, if_neg hdne]
      exact reSplitFuel_of_none hnone _
    have hine : input ≠ [] := ne_nil_of_strip_ne_nil h
    have hind : input ≠ d := by
      intro he
      exact hinf (by rw [he])
    have hseg : segLoop d [] [input] = [strip input] := by
      rw [segLoop_cons_text d [] input [] hine hind]
      simp [h, segLoop]
    simp [split_latex_into_lines, h, hparts, hseg]

/-- C6, witness: `" E=mc^2 "` (no comma) yields its trimmed form as the
single segment, and a whitespace-only input yields nothing. -/
theorem c6_witness :
    split_latex_into_lines (String.toList " E=mc^2 ") [','] =
        [strip (String.toList " E=mc^2 ")] ∧
      split_latex_into_lines (String.toList "   ") [','] = [] :=
  ⟨(c6_no_delimiter_single_segment (String.toList " E=mc^2 ") [',']).2 (by decide) (by decide),
    (c6_no_delimiter_single_segment (String.toList "   ") [',']).1 (by decide)⟩

/-! ## Claim C9 -/

/-- C9: every segment the Segmenter returns is non-empty and equals its
own trim (no leading or trailing whitespace), for every input and every
delimiter. -/
theorem c9_segments_trimmed_nonempty (input d : List Char) :
    ∀ s ∈ split_latex_into_lines input d, strip s = s ∧ s ≠ [] := by
  intro s hs
  by_cases h0 : strip input = []
  · simp [split_latex_into_lines, h0] at hs
  · by_cases hL : segLoop d [] (reSplitCapture d input) = []
    · have hres : split_latex_into_lines input d =
          if strip input = d then [d] else [strip input] := by
        simp [split_latex_into_lines, h0, hL]
      rw [hres] at hs
      by_cases hsd : strip input = d
      · rw [if_pos hsd] at hs
        simp only [List.mem_singleton] at hs
        subst hs
        refine ⟨?_, ?_⟩
        · rw [← hsd, strip_idem]
        · rw [← hsd]; exact h0
      · rw [if_neg hsd] at hs
        simp only [List.mem_singleton] at hs
        subst hs
        exact ⟨strip_idem input, h0⟩
    · have hres : split_latex_into_lines input d =
          segLoop d [] (reSplitCapture d input) := by
        simp [split_latex_into_lines, h0, hL]
      rw [hres] at hs
      exact segLoop_mem d _ [] s hs

/-- C9, witness: the segment `"x,"` of `"x,y"` is trimmed and non-empty. -/
theorem c9_witness :
    strip (String.toList "x,") = String.toList "x," ∧ String.toList "x," ≠ [] :=
  c9_segments_trimmed_nonempty (String.toList "x,y") [','] (String.toList "x,") (by decide)

/-! ## Helper lemmas: the pixel scan -/

theorem scanUpd_found_eq (ink : Nat → Nat → Bool) (st : ScanState) (c : Nat × Nat) :
    (scanUpd ink st c).found = (st.found || ink c.1 c.2) := by
  unfold scanUpd
  split_ifs with h <;> simp [h]

theorem scanUpd_minX_eq (ink : Nat → Nat → Bool) (st : ScanState) (c : Nat × Nat) :
    (scanUpd ink st c).minX =
      if ink c.1 c.2 = true ∧ (c.1 : Int) < st.minX then (c.1 : Int) else st.minX := by
  unfold scanUpd
  split_ifs with h h2 h3 <;> first | rfl | tauto

theorem scanUpd_minY_eq (ink : Nat → Nat → Bool) (st : ScanState) (c : Nat × Nat) :
    (scanUpd ink st c).minY =
      if ink c.1 c.2 = true ∧ (c.2 : Int) < st.minY then (c.2 : Int) else st.minY := by
  unfold scanUpd
  split_ifs with h h2 h3 <;> first | rfl | tauto

theorem scanUpd_maxX_eq (ink : Nat → Nat → Bool) (st : ScanState) (c : Nat × Nat) :
    (scanUpd ink st c).maxX =
      if ink c.1 c.2 = true ∧ st.maxX < (c.1 : Int) then (c.1 : Int) else st.maxX := by
  unfold scanUpd
  split_ifs with h h2 h3 <;> first | rfl | tauto

theorem scanUpd_maxY_eq (ink : Nat → Nat → Bool) (st : ScanState) (c : Nat × Nat) :
    (scanUpd ink st c).maxY =
      if ink c.1 c.2 = true ∧ st.maxY < (c.2 : Int) then (c.2 : Int) else st.maxY := by
  unfold scanUpd
  split_ifs with h h2 h3 <;> first | rfl | tauto

theorem scanFold_found (ink : Nat → Nat → Bool) (L : List (Nat × Nat)) :
    ∀ s : ScanState,
      (L.foldl (scanUpd ink) s).found = (s.found || L.any fun c => ink c.1 c.2) := by
  induction L with
  | nil => intro s; simp
  | cons c L ih =>
    intro s
    rw [List.foldl_cons, ih, List.any_cons, scanUpd_found_eq]
    cases s.found <;> cases h : ink c.1 c.2 <;> simp

theorem scanFold_minX (ink : Nat → Nat → Bool) (L : List (Nat × Nat)) :
    ∀ s : ScanState,
      ((L.foldl (scanUpd ink) s).minX ≤ s.minX) ∧
        (∀ c ∈ L, ink c.1 c.2 = true → (L.foldl (scanUpd ink) s).minX ≤ (c.1 : Int)) ∧
        ((L.foldl (scanUpd ink) s).minX = s.minX ∨
          ∃ c ∈ L, ink c.1 c.2 = true ∧ (L.foldl (scanUpd ink) s).minX = (c.1 : Int)) := by
  induction L with
  | nil => intro s; exact ⟨le_refl _, by simp, Or.inl rfl⟩
  | cons c L ih =>
    intro s
    rw [List.foldl_cons]
    obtain ⟨h1, h2, h3⟩ := ih (scanUpd ink s c)
    have hu := scanUpd_minX_eq ink s c
    have hle : (scanUpd ink s c).minX ≤ s.minX := by
      rw [hu]; split_ifs with hcond <;> omega
    refine ⟨le_trans h1 hle, ?_, ?_⟩
    · intro c' hc' hink
      rcases List.mem_cons.mp hc' with rfl | hc'
      · have hcle : (scanUpd ink s c').minX ≤ (c'.1 : Int) := by
          rw [hu]
          split_ifs with hcond
          · omega
          · have hnlt : ¬ ((c'.1 : Int) < s.minX) := fun hlt => hcond ⟨hink, hlt⟩
            omega
        exact le_trans h1 hcle
      · exact h2 c' hc' hink
    · rcases h3 with h3 | ⟨c', hc', hink, heq⟩
      · rw [hu] at h3
        by_cases hcond : ink c.1 c.2 = true ∧ (c.1 : Int) < s.minX
        · right
          exact ⟨c, List.mem_cons_self c L, hcond.1, by rw [h3, if_pos hcond]⟩
        · left
          rw [h3, if_neg hcond]
      · right
        exact ⟨c', List.mem_cons_of_mem c hc', hink, heq⟩

theorem scanFold_minY (ink : Nat → Nat → Bool) (L : List (Nat × Nat)) :
    ∀ s : ScanState,
      ((L.foldl (scanUpd ink) s).minY ≤ s.minY) ∧
        (∀ c ∈ L, ink c.1 c.2 = true → (L.foldl (scanUpd ink) s).minY ≤ (c.2 : Int)) ∧
        ((L.foldl (scanUpd ink) s).minY = s.minY ∨
          ∃ c ∈ L, ink c.1 c.2 = true ∧ (L.foldl (scanUpd ink) s).minY = (c.2 : Int)) := by
  induction L with
  | nil => intro s; exact ⟨le_refl _, by simp, Or.inl rfl⟩
  | cons c L ih =>
    intro s
    rw [List.foldl_cons]
    obtain ⟨h1, h2, h3⟩ := ih (scanUpd ink s c)
    have hu := scanUpd_minY_eq ink s c
    have hle : (scanUpd ink s c).minY ≤ s.minY := by
      rw [hu]; split_ifs with hcond <;> omega
    refine ⟨le_trans h1 hle, ?_, ?_⟩
    · intro c' hc' hink
      rcases List.mem_cons.mp hc' with rfl | hc'
      · have hcle : (scanUpd ink s c').minY ≤ (c'.2 : Int) := by
          rw [hu]
          split_ifs with hcond
          · omega
          · have hnlt : ¬ ((c'.2 : Int) < s.minY) := fun hlt => hcond ⟨hink, hlt⟩
            omega
        exact le_trans h1 hcle
      · exact h2 c' hc' hink
    · rcases h3 with h3 | ⟨c', hc', hink, heq⟩
      · rw [hu] at h3
        by_cases hcond : ink c.1 c.2 = true ∧ (c.2 : Int) < s.minY
        · right
          exact ⟨c, List.mem_cons_self c L, hcond.1, by rw [h3, if_pos hcond]⟩
        · left
          rw [h3, if_neg hcond]
      · right
        exact ⟨c', List.mem_cons_of_mem c hc', hink, heq⟩

theorem scanFold_maxX (ink : Nat → Nat → Bool) (L : List (Nat × Nat)) :
    ∀ s : ScanState,
      (s.maxX ≤ (L.foldl (scanUpd ink) s).maxX) ∧
        (∀ c ∈ L, ink c.1 c.2 = true → (c.1 : Int) ≤ (L.foldl (scanUpd ink) s).maxX) ∧
        ((L.foldl (scanUpd ink) s).maxX = s.maxX ∨
          ∃ c ∈ L, ink c.1 c.2 = true ∧ (L.foldl (scanUpd ink) s).maxX = (c.1 : Int)) := by
  induction L with
  | nil => intro s; exact ⟨le_refl _, by simp, Or.inl rfl⟩
  | cons c L ih =>
    intro s
    rw [List.foldl_cons]
    obtain ⟨h1, h2, h3⟩ := ih (scanUpd ink s c)
    have hu := scanUpd_maxX_eq ink s c
    have hle : s.maxX ≤ (scanUpd ink s c).maxX := by
      rw [hu]; split_ifs with hcond <;> omega
    refine ⟨le_trans hle h1, ?_, ?_⟩
    · intro c' hc' hink
      rcases List.mem_cons.mp hc' with rfl | hc'
      · have hcle : (c'.1 : Int) ≤ (scanUpd ink s c').maxX := by
          rw [hu]
          split_ifs with hcond
          · omega
          · have hnlt : ¬ (s.maxX < (c'.1 : Int)) := fun hlt => hcond ⟨hink, hlt⟩
            omega
        exact le_trans hcle h1
      · exact h2 c' hc' hink
    · rcases h3 with h3 | ⟨c', hc', hink, heq⟩
      · rw [hu] at h3
        by_cases hcond : ink c.1 c.2 = true ∧ s.maxX < (c.1 : Int)
        · right
          exact ⟨c, List.mem_cons_self c L, hcond.1, by rw [h3, if_pos hcond]⟩
        · left
          rw [h3, if_neg hcond]
      · right
        exact ⟨c', List.mem_cons_of_mem c hc', hink, heq⟩

theorem scanFold_maxY (ink : Nat → Nat → Bool) (L : List (Nat × Nat)) :
    ∀ s : ScanState,
      (s.maxY ≤ (L.foldl (scanUpd ink) s).maxY) ∧
        (∀ c ∈ L, ink c.1 c.2 = true → (c.2 : Int) ≤ (L.foldl (scanUpd ink) s).maxY) ∧
        ((L.foldl (scanUpd ink) s).maxY = s.maxY ∨
          ∃ c ∈ L, ink c.1 c.2 = true ∧ (L.foldl (scanUpd ink) s).maxY = (c.2 : Int)) := by
  induction L with
  | nil => intro s; exact ⟨le_refl _, by simp, Or.inl rfl⟩
  | cons c L ih =>
    intro s
    rw [List.foldl_cons]
    obtain ⟨h1, h2, h3⟩ := ih (scanUpd ink s c)
    have hu := scanUpd_maxY_eq ink s c
    have hle : s.maxY ≤ (scanUpd ink s c).maxY := by
      rw [hu]; split_ifs with hcond <;> omega
    refine ⟨le_trans hle h1, ?_, ?_⟩
    · intro c' hc' hink
      rcases List.mem_cons.mp hc' with rfl | hc'
      · have hcle : (c'.2 : Int) ≤ (scanUpd ink s c').maxY := by
          rw [hu]
          split_ifs with hcond
          · omega
          · have hnlt : ¬ (s.maxY < (c'.2 : Int)) := fun hlt => hcond ⟨hink, hlt⟩
            omega
        exact le_trans hcle h1
      · exact h2 c' hc' hink
    · rcases h3 with h3 | ⟨c', hc', hink, heq⟩
      · rw [hu] at h3
        by_cases hcond : ink c.1 c.2 = true ∧ s.maxY < (c.2 : Int)
        · right
          exact ⟨c, List.mem_cons_self c L, hcond.1, by rw [h3, if_pos hcond]⟩
        · left
          rw [h3, if_neg hcond]
      · right
        exact ⟨c', List.mem_cons_of_mem c hc', hink, heq⟩

theorem mem_scanCoords {w h : Nat} {c : Nat × Nat} :
    c ∈ scanCoords w h ↔ c.1 < w ∧ c.2 < h := by
  obtain ⟨x, y⟩ := c
  simp only [scanCoords, List.mem_flatMap, List.mem_map, List.mem_range]
  constructor
  · rintro ⟨y', hy', x', hx', heq⟩
    obtain ⟨h1, h2⟩ := Prod.mk.injEq x' y' x y ▸ heq
    exact ⟨h1 ▸ hx', h2 ▸ hy'⟩
  · rintro ⟨hx, hy⟩
    exact ⟨y, hy, x, hx, rfl⟩

theorem bbox_none_of_no_ink (img : Img) (bg : BgColor)
    (h : ∀ x y : Nat, x < img.width → y < img.height →
      inkTest bg (img.pix x y) = false) :
    get_precise_ink_bbox img bg = none := by
  have hfound : (scanState img bg).found = false := by
    rw [scanState, scanFold_found]
    have hany : ((scanCoords img.width img.height).any fun c =>
        inkTest bg (img.pix c.1 c.2)) = false := by
      rw [List.any_eq_false]
      intro c hc
      obtain ⟨h1, h2⟩ := mem_scanCoords.mp hc
      simp [h c.1 c.2 h1 h2]
    simp only []
    rw [hany]
    rfl
  rw [get_precise_ink_bbox, hfound]
  rfl

theorem bbox_some_spec (img : Img) (bg : BgColor) (x0 y0 : Nat)
    (hx0 : x0 < img.width) (hy0 : y0 < img.height)
    (hink0 : inkTest bg (img.pix x0 y0) = true) :
    ∃ a b cx dy : Int, get_precise_ink_bbox img bg = some (a, b, cx + 1, dy + 1) ∧
      (∀ x y : Nat, x < img.width → y < img.height →
        inkTest bg (img.pix x y) = true →
        a ≤ (x : Int) ∧ (x : Int) ≤ cx ∧ b ≤ (y : Int) ∧ (y : Int) ≤ dy) ∧
      (∃ x y : Nat, x < img.width ∧ y < img.height ∧
        inkTest bg (img.pix x y) = true ∧ (x : Int) = a) ∧
      (∃ x y : Nat, x < img.width ∧ y < img.height ∧
        inkTest bg (img.pix x y) = true ∧ (y : Int) = b) ∧
      (∃ x y : Nat, x < img.width ∧ y < img.height ∧
        inkTest bg (img.pix x y) = true ∧ (x : Int) = cx) ∧
      (∃ x y : Nat, x < img.width ∧ y < img.height ∧
        inkTest bg (img.pix x y) = true ∧ (y : Int) = dy) := by
  have hsDef : scanState img bg = (scanCoords img.width img.height).foldl
      (scanUpd fun x y => inkTest bg (img.pix x y))
      ⟨(img.width : Int), (img.height : Int), -1, -1, false⟩ := rfl
  have hmem0 : ((x0, y0) : Nat × Nat) ∈ scanCoords img.width img.height :=
    mem_scanCoords.mpr ⟨hx0, hy0⟩
  obtain ⟨hX1, hX2, hX3⟩ := scanFold_minX (fun x y => inkTest bg (img.pix x y))
    (scanCoords img.width img.height)
    ⟨(img.width : Int), (img.height : Int), -1, -1, false⟩
  obtain ⟨hY1, hY2, hY3⟩ := scanFold_minY (fun x y => inkTest bg (img.pix x y))
    (scanCoords img.width img.height)
    ⟨(img.width : Int), (img.height : Int), -1, -1, false⟩
  obtain ⟨hU1, hU2, hU3⟩ := scanFold_maxX (fun x y => inkTest bg (img.pix x y))
    (scanCoords img.width img.height)
    ⟨(img.width : Int), (img.height : Int), -1, -1, false⟩
  obtain ⟨hV1, hV2, hV3⟩ := scanFold_maxY (fun x y => inkTest bg (img.pix x y))
    (scanCoords img.width img.height)
    ⟨(img.width : Int), (img.height : Int), -1, -1, false⟩
  rw [← hsDef] at hX1 hX2 hX3 hY1 hY2 hY3 hU1 hU2 hU3 hV1 hV2 hV3
  have hfound : (scanState img bg).found = true := by
    rw [hsDef, scanFold_found]
    have hany : ((scanCoords img.width img.height).any fun c =>
        inkTest bg (img.pix c.1 c.2)) = true :=
      List.any_eq_true.mpr ⟨(x0, y0), hmem0, hink0⟩
    simp only []
    rw [hany]
    rfl
  have hbbox : get_precise_ink_bbox img bg = some ((scanState img bg).minX,
      (scanState img bg).minY, (scanState img bg).maxX + 1,
      (scanState img bg).maxY + 1) := by
    rw [get_precise_ink_bbox, hfound]
    rfl
  refine ⟨(scanState img bg).minX, (scanState img bg).minY,
    (scanState img bg).maxX, (scanState img bg).maxY, hbbox, ?_, ?_, ?_, ?_, ?_⟩
  · intro x y hx hy hink
    have hm : ((x, y) : Nat × Nat) ∈ scanCoords img.width img.height :=
      mem_scanCoords.mpr ⟨hx, hy⟩
    exact ⟨hX2 (x, y) hm hink, hU2 (x, y) hm hink, hY2 (x, y) hm hink,
      hV2 (x, y) hm hink⟩
  · rcases hX3 with h3 | ⟨c, hc, hinkc, heq⟩
    · exfalso
      have hle := hX2 (x0, y0) hmem0 hink0
      have hlt : ((x0 : Int)) < (img.width : Int) := by
        exact_mod_cast hx0
      have : (scanState img bg).minX = (img.width : Int) := h3
      omega
    · obtain ⟨hcw, hch⟩ := mem_scanCoords.mp hc
      exact ⟨c.1, c.2, hcw, hch, hinkc, heq.symm⟩
  · rcases hY3 with h3 | ⟨c, hc, hinkc, heq⟩
    · exfalso
      have hle := hY2 (x0, y0) hmem0 hink0
      have hlt : ((y0 : Int)) < (img.height : Int) := by
        exact_mod_cast hy0
      have : (scanState img bg).minY = (img.height : Int) := h3
      omega
    · obtain ⟨hcw, hch⟩ := mem_scanCoords.mp hc
      exact ⟨c.1, c.2, hcw, hch, hinkc, heq.symm⟩
  · rcases hU3 with h3 | ⟨c, hc, hinkc, heq⟩
    · exfalso
      have hge := hU2 (x0, y0) hmem0 hink0
      have hnn : (0 : Int) ≤ (x0 : Int) := Int.natCast_nonneg x0
      have : (scanState img bg).maxX = (-1 : Int) := h3
      omega
    · obtain ⟨hcw, hch⟩ := mem_scanCoords.mp hc
      exact ⟨c.1, c.2, hcw, hch, hinkc, heq.symm⟩
  · rcases hV3 with h3 | ⟨c, hc, hinkc, heq⟩
    · exfalso
      have hge := hV2 (x0, y0) hmem0 hink0
      have hnn : (0 : Int) ≤ (y0 : Int) := Int.natCast_nonneg y0
      have : (scanState img bg).maxY = (-1 : Int) := h3
      omega
    · obtain ⟨hcw, hch⟩ := mem_scanCoords.mp hc
      exact ⟨c.1, c.2, hcw, hch, hinkc, heq.symm⟩

/-! ## Claim C3 -/

/-- C3: the Ink-Bounds Scanner returns `none` exactly when no pixel is ink
(in particular on a fully uniform background-colored image), and otherwise
returns the smallest axis-aligned rectangle
`(min_x, min_y, max_x + 1, max_y + 1)` covering all ink pixels: every ink
pixel lies inside it and each of its four bounds is attained by an ink
pixel; in particular, when exactly one pixel `(x0, y0)` is ink the result
is `(x0, y0, x0 + 1, y0 + 1)`.  Ink means positive alpha under the
transparency sentinel and any RGBA difference from the background value
otherwise. -/
theorem c3_ink_bbox_is_tight (img : Img) (bg : BgColor) :
    ((∀ x y : Nat, x < img.width → y < img.height →
        inkTest bg (img.pix x y) = false) →
      get_precise_ink_bbox img bg = none) ∧
    (∀ x0 y0 : Nat, x0 < img.width → y0 < img.height →
      inkTest bg (img.pix x0 y0) = true →
      ∃ a b cx dy : Int, get_precise_ink_bbox img bg = some (a, b, cx + 1, dy + 1) ∧
        (∀ x y : Nat, x < img.width → y < img.height →
          inkTest bg (img.pix x y) = true →
          a ≤ (x : Int) ∧ (x : Int) ≤ cx ∧ b ≤ (y : Int) ∧ (y : Int) ≤ dy) ∧
        (∃ x y : Nat, x < img.width ∧ y < img.height ∧
          inkTest bg (img.pix x y) = true ∧ (x : Int) = a) ∧
        (∃ x y : Nat, x < img.width ∧ y < img.height ∧
          inkTest bg (img.pix x y) = true ∧ (y : Int) = b) ∧
        (∃ x y : Nat, x < img.width ∧ y < img.height ∧
          inkTest bg (img.pix x y) = true ∧ (x : Int) = cx) ∧
        (∃ x y : Nat, x < img.width ∧ y < img.height ∧
          inkTest bg (img.pix x y) = true ∧ (y : Int) = dy)) ∧
    (∀ x0 y0 : Nat, x0 < img.width → y0 < img.height →
      (∀ x : Nat, x < img.width → ∀ y : Nat, y < img.height →
        (inkTest bg (img.pix x y) = true ↔ (x = x0 ∧ y = y0))) →
      get_precise_ink_bbox img bg =
        some ((x0 : Int), (y0 : Int), (x0 : Int) + 1, (y0 : Int) + 1)) := by
  refine ⟨bbox_none_of_no_ink img bg, bbox_some_spec img bg, ?_⟩
  intro x0 y0 hx0 hy0 hiff
  have hink0 : inkTest bg (img.pix x0 y0) = true :=
    (hiff x0 hx0 y0 hy0).mpr ⟨rfl, rfl⟩
  obtain ⟨a, b, cx, dy, heq, hbound, ⟨xa, ya, hxa, hya, hka, ha⟩,
    ⟨xb, yb, hxb, hyb, hkb, hb⟩, ⟨xc, yc, hxc, hyc, hkc, hc⟩,
    ⟨xd, yd, hxd, hyd, hkd, hdy⟩⟩ := bbox_some_spec img bg x0 y0 hx0 hy0 hink0
  obtain ⟨rfl, rfl⟩ := (hiff xa hxa ya hya).mp hka
  obtain ⟨rfl, rfl⟩ := (hiff xb hxb yb hyb).mp hkb
  obtain ⟨rfl, rfl⟩ := (hiff xc hxc yc hyc).mp hkc
  obtain ⟨rfl, rfl⟩ := (hiff xd hxd yd hyd).mp hkd
  rw [heq, ← ha, ← hb, ← hc, ← hdy]

/-- C3, witness: on a 2×2 image whose only non-white pixel sits at (1, 0),
scanning against a white background returns the rectangle (1, 0, 2, 1). -/
theorem c3_witness :
    get_precise_ink_bbox imgDotEx bgWhiteEx = some (1, 0, 2, 1) :=
  (c3_ink_bbox_is_tight imgDotEx bgWhiteEx).2.2 1 0 (by decide) (by decide) (by decide)

/-! ## Claim C7 -/

/-- C7: auto-cropping with zero padding an image of non-zero size whose
ink bounding box already spans the full extent succeeds and leaves the
dimensions unchanged. -/
theorem c7_autocrop_idempotent_on_tight_images (img : Img) (bg : BgColor)
    (hw : img.width ≠ 0) (hh : img.height ≠ 0)
    (htight : get_precise_ink_bbox img bg =
      some (0, 0, (img.width : Int), (img.height : Int))) :
    ∃ out, auto_crop_image img bg 0 = some out ∧
      out.width = img.width ∧ out.height = img.height := by
  have hcw : (cropImg img (0, 0, (img.width : Int), (img.height : Int))).width =
      img.width := by
    simp [cropImg]
  have hch : (cropImg img (0, 0, (img.width : Int), (img.height : Int))).height =
      img.height := by
    simp [cropImg]
  refine ⟨cropImg img (0, 0, (img.width : Int), (img.height : Int)), ?_, hcw, hch⟩
  simp only [auto_crop_image, htight]
  rw [if_neg (by omega)]
  rw [ensureNonzero, if_neg (by rw [hcw, hch]; push_neg; exact ⟨hw, hh⟩)]

/-- C7, witness: the 1×1 black image on white background is tightly
cropped, and zero-padding auto-crop keeps its 1×1 size. -/
theorem c7_witness :
    ∃ out, auto_crop_image imgPxEx bgWhiteEx 0 = some out ∧
      out.width = imgPxEx.width ∧ out.height = imgPxEx.height :=
  c7_autocrop_idempotent_on_tight_images imgPxEx bgWhiteEx (by decide) (by decide)
    (by decide)

/-! ## Claim C10 -/

/-- C10: scanning against an opaque background whose color name is not
recognized does not fail; it computes exactly the bounds it would compute
against opaque white (255, 255, 255, 255). -/
theorem c10_unrecognized_color_scans_as_white (img : Img) :
    get_precise_ink_bbox img (BgColor.named none) =
      get_precise_ink_bbox img (BgColor.named (some (255, 255, 255, 255))) := rfl

/-! ## Helper lemmas: the Compositor -/

theorem pasteAll_width (spacing : Int) :
    ∀ (imgs : List Img) (canvas : Img) (y : Int),
      (pasteAll spacing canvas y imgs).width = canvas.width := by
  intro imgs
  induction imgs with
  | nil => intro canvas y; rfl
  | cons i rest ih =>
    intro canvas y
    rw [pasteAll, ih]
    rfl

theorem pasteAll_height (spacing : Int) :
    ∀ (imgs : List Img) (canvas : Img) (y : Int),
      (pasteAll spacing canvas y imgs).height = canvas.height := by
  intro imgs
  induction imgs with
  | nil => intro canvas y; rfl
  | cons i rest ih =>
    intro canvas y
    rw [pasteAll, ih]
    rfl

theorem filterMap_id_map_some (raw : List Img) : (raw.map some).filterMap id = raw := by
  induction raw with
  | nil => rfl
  | cons i rest ih => simp [ih]

theorem loadAdjust_of_pos {img : Img} (bg : BgColor) (hw : 0 < img.width)
    (hh : 0 < img.height) : loadAdjust bg img = img := by
  rw [loadAdjust, if_neg]
  push_neg
  omega

theorem map_loadAdjust_of_pos (bg : BgColor) (raw : List Img)
    (h : ∀ i ∈ raw, 0 < i.width ∧ 0 < i.height) : raw.map (loadAdjust bg) = raw := by
  induction raw with
  | nil => rfl
  | cons i rest ih =>
    have hi := h i (List.mem_cons_self i rest)
    rw [List.map_cons, loadAdjust_of_pos bg hi.1 hi.2,
      ih fun j hj => h j (List.mem_cons_of_mem i hj)]

theorem loadAdjust_width (bg : BgColor) (img : Img) :
    (loadAdjust bg img).width = max 1 img.width := by
  rw [loadAdjust]
  split_ifs with h
  · rfl
  · push_neg at h
    omega

theorem loadAdjust_height (bg : BgColor) (img : Img) :
    (loadAdjust bg img).height = max 1 img.height := by
  rw [loadAdjust]
  split_ifs with h
  · rfl
  · push_neg at h
    omega

theorem map_loadAdjust_width (bg : BgColor) (raw : List Img) :
    (raw.map (loadAdjust bg)).map Img.width = raw.map fun i => max 1 i.width := by
  induction raw with
  | nil => rfl
  | cons i rest ih => simp [loadAdjust_width, ih]

theorem map_loadAdjust_height_int (bg : BgColor) (raw : List Img) :
    (raw.map (loadAdjust bg)).map (fun i => (i.height : Int)) =
      raw.map fun i => ((max 1 i.height : Nat) : Int) := by
  induction raw with
  | nil => rfl
  | cons i rest ih => simp [loadAdjust_height, ih]

/-! ## Claim C4 -/

/-- C4, counterexample: for loaded images of heights 0 and 10 with
spacing 0, the zero-height image is first replaced by a 5×1 placeholder
(line 258), so the canvas height is 11, while the claim's formula —
the sum of the loaded images' heights (clamped to at least 1) — gives
10. -/
theorem c4_counterexample :
    ∃ canvas, stitch_images_vertically ([imgZeroHEx, imgH10Ex].map some) bgWhiteEx 0 =
        some canvas ∧ canvas.height = 11 ∧
      (max 1 (([imgZeroHEx, imgH10Ex].map fun i => (i.height : Int)).sum +
        (([imgZeroHEx, imgH10Ex].length : Int) - 1) * 0)).toNat = 10 := by
  refine ⟨_, rfl, rfl, by decide⟩

/-- C4 (amended): for every non-empty sequence of loaded images, every
spacing value and any resolvable background, the stitched canvas has
width `max 1 (maximum over the images of max 1 width)` and height
`max 1 (sum over the images of max 1 height + (count - 1) · spacing)` —
the spacing is inserted between adjacent pairs only, and each zero
dimension of a loaded image is first bumped to 1 by the placeholder
replacement (line 258).  For images of positive size these are exactly
the claim's original maximum/sum formulas. -/
theorem c4_canvas_dimensions (raw : List Img) (bg : BgColor) (spacing : Int)
    (hne : raw ≠ [])
    (hbg : bg ≠ BgColor.named none) :
    ∃ canvas, stitch_images_vertically (raw.map some) bg spacing = some canvas ∧
      canvas.width = max 1 ((raw.map fun i => max 1 i.width).foldl max 0) ∧
      canvas.height = (max 1 ((raw.map fun i => ((max 1 i.height : Nat) : Int)).sum +
        ((raw.length : Int) - 1) * spacing)).toNat := by
  obtain ⟨fill, hfill⟩ : ∃ v, effectiveBg bg = some v := by
    cases bg with
    | transparent => exact ⟨_, rfl⟩
    | named c =>
      cases c with
      | none => exact absurd rfl hbg
      | some v => exact ⟨v, rfl⟩
  have hmaps : (raw.map some).filterMap id = raw := filterMap_id_map_some raw
  have hpe : (raw.map some).isEmpty = false := by
    cases raw with
    | nil => exact absurd rfl hne
    | cons i rest => rfl
  have hie : (raw.map (loadAdjust bg)).isEmpty = false := by
    cases raw with
    | nil => exact absurd rfl hne
    | cons i rest => rfl
  have hlen : (raw.map (loadAdjust bg)).length = raw.length := by
    rw [List.length_map]
  have hheight : (if 1 < (raw.map (loadAdjust bg)).length then
        ((raw.map (loadAdjust bg)).map fun i => (i.height : Int)).sum +
          (((raw.map (loadAdjust bg)).length : Int) - 1) * spacing
      else ((raw.map (loadAdjust bg)).map fun i => (i.height : Int)).sum) =
      (raw.map fun i => ((max 1 i.height : Nat) : Int)).sum +
        ((raw.length : Int) - 1) * spacing := by
    rw [map_loadAdjust_height_int, hlen]
    split_ifs with hl
    · rfl
    · have h1 : raw.length = 1 := by
        cases raw with
        | nil => exact absurd rfl hne
        | cons i rest =>
          simp only [List.length_cons] at hl ⊢
          omega
      rw [h1]
      simp
  have hstitch : stitch_images_vertically (raw.map some) bg spacing =
      some (pasteAll spacing
        { width := max 1 ((raw.map fun i => max 1 i.width).foldl max 0)
          height := (max 1 ((raw.map fun i => ((max 1 i.height : Nat) : Int)).sum +
            ((raw.length : Int) - 1) * spacing)).toNat
          pix := fun _ _ => fill } 0 (raw.map (loadAdjust bg))) := by
    simp only [stitch_images_vertically, hmaps, hpe, hie, hfill, hheight,
      map_loadAdjust_width, Bool.false_eq_true, if_false]
  exact ⟨_, hstitch, by rw [pasteAll_width], by rw [pasteAll_height]⟩

/-- C4, witness: stitching a 3×10 and a 7×20 image with spacing 5 on a
white background yields a 7×35 canvas, matching the claim's original
formulas on positive-size images. -/
theorem c4_witness :
    ∃ canvas, stitch_images_vertically ([imgH10Ex, imgH20Ex].map some) bgWhiteEx 5 =
        some canvas ∧ canvas.width = 7 ∧ canvas.height = 35 := by
  obtain ⟨canvas, h1, h2, h3⟩ := c4_canvas_dimensions [imgH10Ex, imgH20Ex] bgWhiteEx 5
    (by simp) (by decide)
  refine ⟨canvas, h1, ?_, ?_⟩
  · rw [h2]; decide
  · rw [h3]; decide

/-! ## Claim C5 -/

/-- C5, counterexample: a loaded image of size 0×10 is replaced by a 1×10
placeholder, not by a 1×1 one. -/
theorem c5_counterexample :
    ¬ ((loadAdjust bgWhiteEx imgZeroWEx).width = 1 ∧
        (loadAdjust bgWhiteEx imgZeroWEx).height = 1) := by decide

/-- C5 (amended): every loaded image with zero width or zero height is
replaced, before compositing, by a background-filled placeholder of size
`max 1 width × max 1 height` — 1×1 exactly when both dimensions are
zero. -/
theorem c5_zero_size_replaced_with_placeholder (img : Img) (bg : BgColor)
    (h : img.width = 0 ∨ img.height = 0) :
    loadAdjust bg img =
      { width := max 1 img.width, height := max 1 img.height
        pix := fun _ _ => stitchZeroFill bg } := by
  rw [loadAdjust, if_pos h]

/-- C5, witness: the 0×10 image becomes the 1×10 background placeholder. -/
theorem c5_witness :
    loadAdjust bgWhiteEx imgZeroWEx =
      { width := max 1 imgZeroWEx.width, height := max 1 imgZeroWEx.height
        pix := fun _ _ => stitchZeroFill bgWhiteEx } :=
  c5_zero_size_replaced_with_placeholder imgZeroWEx bgWhiteEx (Or.inl rfl)

/-! ## Claim C8 -/

/-- C8, counterexample: on an empty path list the Compositor returns at the
early guard and writes no image at all — no placeholder is produced. -/
theorem c8_counterexample :
    stitch_images_vertically [] bgWhiteEx 0 = none := rfl

/-- C8 (amended): when the path list is non-empty but no image survives
loading, the Compositor produces the non-empty "nothing to stitch" notice
image instead of throwing; an empty path list instead produces no output
image at all. -/
theorem c8_no_loadable_images_placeholder (paths : List (Option Img)) (bg : BgColor)
    (spacing : Int) (hne : paths ≠ []) (hnl : paths.filterMap id = []) :
    stitch_images_vertically paths bg spacing = some nothingToStitchImg ∧
      0 < nothingToStitchImg.width ∧ 0 < nothingToStitchImg.height := by
  refine ⟨?_, by decide, by decide⟩
  have h1 : paths.isEmpty = false := by
    cases paths with
    | nil => exact absurd rfl hne
    | cons p rest => rfl
  simp only [stitch_images_vertically, h1, hnl, Bool.false_eq_true, if_false,
    List.map_nil, List.isEmpty_nil, if_true]

/-- C8, witness: two unopenable paths produce the notice image. -/
theorem c8_witness :
    stitch_images_vertically [none, none] bgWhiteEx 3 = some nothingToStitchImg ∧
      0 < nothingToStitchImg.width ∧ 0 < nothingToStitchImg.height :=
  c8_no_loadable_images_placeholder [none, none] bgWhiteEx 3 (by simp) rfl
